import Mathlib

/-!
Verification of the Shellscribe extraction engine against its specification.

The C sources under src/ are shallowly embedded: C strings become `List Char`
(`CStr`), `NULL`-able strings become `Option CStr`, the input file becomes a
list of lines already stripped of their trailing newline, and the reading
cursor of the engine becomes the list of not-yet-consumed lines.  Allocation
failures (malloc returning NULL) are not modelled: every allocation succeeds.
Debug tracing (`debug_message`) has no behavioural effect and is dropped.
-/

namespace Shellscribe

/-- A C string, embedded as a list of characters (no interior NUL). -/
abbrev CStr := List Char

/-- Model of C `isspace` in the C locale: space, tab, newline, vertical tab,
form feed, carriage return. -/
def cIsSpace (c : Char) : Bool :=
  c = ' ' || c = '\t' || c = '\n' || c = '\x0b' || c = '\x0c' || c = '\r'

/-- Skipping leading whitespace, as the `while (isspace(*p)) p++` idiom. -/
def dropSpaces (s : CStr) : CStr := s.dropWhile cIsSpace

/-- Removal of trailing whitespace, as the `while (end > start && isspace(end[-1])) end--` idiom. -/
def rtrimSpaces (s : CStr) : CStr := (s.reverse.dropWhile cIsSpace).reverse

/-- Model of C `isalnum(c) || c == UNDERSCORE` used for shell function names. -/
def isNameChar (c : Char) : Bool := c.isAlphanum || c = '_'

/-- Model of C `tolower` restricted to ASCII (the C locale). -/
def asciiLower (c : Char) : Char :=
  if 'A' ≤ c && c ≤ 'Z' then Char.ofNat (c.toNat + 32) else c

/-- Pattern check `startsWith pat s`: the literal `pat` begins the string `s`
(the `strncmp(s, pat, strlen(pat)) == 0` idiom). -/
def startsWith : CStr → CStr → Bool
  | [], _ => true
  | _ :: _, [] => false
  | p :: ps, c :: cs => p = c && startsWith ps cs

/-- Model of `strchr`: split `s` at the first occurrence of `c`, returning the
part strictly before and the part strictly after it, or `none` when absent. -/
def splitAtChar (c : Char) : CStr → Option (CStr × CStr)
  | [] => none
  | x :: xs =>
    if x = c then some ([], xs)
    else (splitAtChar c xs).map (fun p => (x :: p.1, p.2))

/-- Model of `strstr`: split `s` at the first occurrence of the substring
`pat`, returning the part before it and the part after it. -/
def splitAtSub (pat : CStr) : CStr → Option (CStr × CStr)
  | [] => if pat = [] then some ([], []) else none
  | x :: xs =>
    if startsWith pat (x :: xs) then some ([], (x :: xs).drop pat.length)
    else (splitAtSub pat xs).map (fun p => (x :: p.1, p.2))

/-- Index of the first occurrence of `c` in `s`, mirroring the pointer
returned by `strchr` measured as an offset. -/
def firstIdx (c : Char) : CStr → Option Nat
  | [] => none
  | x :: xs => if x = c then some 0 else (firstIdx c xs).map (· + 1)

/-- Substring occurrence test, as `strstr(s, pat) != NULL`. -/
def hasSub (pat : CStr) : CStr → Bool
  | [] => decide (pat = [])
  | c :: cs => startsWith pat (c :: cs) || hasSub pat cs

/-! Line classifiers, from src/src/parsers/tag.c, annotation.c and shellcheck.c. -/

/-- Embedding of `is_comment_line` (tag.c): the first non-whitespace
character is a hash. -/
def is_comment_line (l : CStr) : Bool :=
  match dropSpaces l with
  | '#' :: _ => true
  | _ => false

/-- Embedding of `is_tag_line` = `static_is_tag_line` (tag.c): after leading
whitespace the line starts with the literal prefix TAG_PREFIX = hash, space,
at-sign. -/
def is_tag_line (l : CStr) : Bool :=
  startsWith ("# @".data) (dropSpaces l)

/-- Embedding of the global `is_special_annotation` (annotation.c), renamed:
the line contains one of the literal keywords anywhere. -/
def is_special_annot (l : CStr) : Bool :=
  hasSub ("shellcheck".data) l || hasSub ("disable".data) l ||
  hasSub ("TODO".data) l || hasSub ("FIXME".data) l ||
  hasSub ("XXX".data) l || hasSub ("HACK".data) l

/-- Embedding of `is_shellcheck_directive` (shellcheck.c): whitespace, a hash,
whitespace, then the case-insensitive literal word shellcheck. -/
def is_shellcheck_directive (l : CStr) : Bool :=
  match dropSpaces l with
  | '#' :: t => ((dropSpaces t).take 10).map asciiLower = ("shellcheck".data)
  | _ => false

/-- Embedding of `extract_tag_name` (tag.c): the token after the first
at-sign, up to whitespace or a colon; `none` when the line has no at-sign. -/
def extract_tag_name (l : CStr) : Option CStr :=
  match splitAtChar '@' l with
  | none => none
  | some (_, aft) => some (aft.takeWhile (fun c => !cIsSpace c && c ≠ ':'))

/-- Embedding of `extract_tag_content` (tag.c): skip the tag name after the
first at-sign, skip one colon if present, then skip whitespace. -/
def extract_tag_content (l : CStr) : Option CStr :=
  match splitAtChar '@' l with
  | none => none
  | some (_, aft) =>
    let r := aft.dropWhile (fun c => !cIsSpace c && c ≠ ':')
    let r := match r with
      | ':' :: t => t
      | _ => r
    some (r.dropWhile cIsSpace)

/-- Embedding of `is_function_declaration` (function.c).  The first branch
accepts any line whose first non-whitespace text is the eight letters of the
word function followed by one whitespace character, with nothing further
checked.  The second branch accepts `name(...)...{` where the text before the
first opening parenthesis is a non-empty run of name characters, some closing
parenthesis follows, and only whitespace stands between the first closing
parenthesis and the next opening brace. -/
def is_function_declaration (l : CStr) : Bool :=
  let pos := dropSpaces l
  if startsWith ("function".data) pos && cIsSpace (pos.getD 8 'a') then true
  else
    match splitAtChar '(' pos with
    | none => false
    | some (before, aftOpen) =>
      if before = [] then false
      else if before.all isNameChar then
        match splitAtChar ')' aftOpen with
        | none => false
        | some (_, aftClose) =>
          match splitAtChar '\x7b' aftClose with
          | none => false
          | some (between, _) => between.all cIsSpace
      else false

/-- Embedding of `extract_function_name` (function.c): after an optional
function keyword and whitespace, the text before the first opening
parenthesis, with trailing whitespace removed. -/
def extract_function_name (l : CStr) : Option CStr :=
  if !is_function_declaration l then none
  else
    let pos := dropSpaces l
    let pos :=
      if startsWith ("function".data) pos && cIsSpace (pos.getD 8 'a') then
        dropSpaces (pos.drop 8)
      else pos
    match splitAtChar '(' pos with
    | none => none
    | some (before, _) => if before = [] then none else some (rtrimSpaces before)

/-! Data model, from src/include/parsers/types.h.  Only the fields that the
live parsing pipeline can touch are carried; `char *` fields that may stay
NULL become `Option CStr`.  Counters (`arg_count` etc.) are the lengths of the
corresponding lists and are not duplicated. -/

/-- Embedding of `shellscribe_argument_t`. -/
structure ArgumentT where
  name : CStr
  type : Option CStr
  description : CStr
deriving DecidableEq, Repr

/-- Embedding of `shellscribe_param_t`. -/
structure ParamT where
  name : CStr
  description : CStr
deriving DecidableEq, Repr

/-- Embedding of `shellscribe_exitcode_t`. -/
structure ExitcodeT where
  code : CStr
  description : CStr
deriving DecidableEq, Repr

/-- Embedding of `shellscribe_alert_t`. -/
structure AlertT where
  type : CStr
  content : CStr
deriving DecidableEq, Repr

/-- Embedding of `shellscribe_shellcheck_t`. -/
structure ShellcheckT where
  code : CStr
  directive : CStr
  reason : Option CStr
deriving DecidableEq, Repr

/-- Embedding of `shellscribe_docblock_t` restricted to the fields the live
pipeline (metadata pre-pass, body pass, `state_process_tag`) can reach. -/
-- In the Docblock structure the C field named example is renamed example_text
-- because example is a reserved word in Lean.
structure Docblock where
  file_name : Option CStr := none
  brief : Option CStr := none
  description : Option CStr := none
  version : Option CStr := none
  author : Option CStr := none
  author_contact : Option CStr := none
  license : Option CStr := none
  copyright : Option CStr := none
  interpreter : Option CStr := none
  function_name : Option CStr := none
  function_brief : Option CStr := none
  function_description : Option CStr := none
  return_desc : Option CStr := none
  arguments : List ArgumentT := []
  params : List ParamT := []
  exitcodes : List ExitcodeT := []
  stdin_doc : Option CStr := none
  stdout_doc : Option CStr := none
  stderr_doc : Option CStr := none
  example_text : Option CStr := none
  is_internal : Bool := false
  is_skipped : Bool := false
  alerts : List AlertT := []
  shellcheck_directives : List ShellcheckT := []
deriving DecidableEq, Repr

/-- A docblock with every field at its `init_docblock` default. -/
def emptyDocblock : Docblock := {}

instance : Inhabited Docblock := ⟨emptyDocblock⟩

/-! Tag grammars. -/

/-- Embedding of `is_file_level_tag` (metadata.c). -/
def is_file_level_tag (tag : CStr) : Bool :=
  tag = ("file".data) || tag = ("version".data) || tag = ("author".data) ||
  tag = ("license".data) || tag = ("copyright".data) || tag = ("since".data) ||
  tag = ("description".data) || tag = ("package".data) || tag = ("module".data) ||
  tag = ("link".data) || tag = ("repo".data) || tag = ("see".data) ||
  tag = ("env".data) || tag = ("skip".data)

/-- Embedding of `process_file_metadata_tag` (metadata.c): the mapping table
in source order, each hit freeing the previous value and storing the new
content; the skip tag sets a flag; anything else reports failure without
mutation. -/
def process_file_metadata_tag (blk : Docblock) (tag content : CStr) : Bool × Docblock :=
  if tag = ("file".data) then (true, { blk with file_name := some content })
  else if tag = ("version".data) then (true, { blk with version := some content })
  else if tag = ("author".data) then (true, { blk with author := some content })
  else if tag = ("since".data) then (true, { blk with author_contact := some content })
  else if tag = ("description".data) then (true, { blk with description := some content })
  else if tag = ("brief".data) then (true, { blk with brief := some content })
  else if tag = ("license".data) then (true, { blk with license := some content })
  else if tag = ("copyright".data) then (true, { blk with copyright := some content })
  else if tag = ("skip".data) then (true, { blk with is_skipped := true })
  else (false, blk)

/-- Embedding of `process_argument_tag` (argument.c): skip whitespace, take a
required name token, optionally a type token, then the remainder (after
whitespace) as description; an empty name fails the tag with no mutation. -/
def process_argument_tag (blk : Docblock) (content : CStr) : Bool × Docblock :=
  let s := content.dropWhile cIsSpace
  let name := s.takeWhile (fun c => !cIsSpace c)
  if name = [] then (false, blk)
  else
    let s1 := (s.drop name.length).dropWhile cIsSpace
    let typ := s1.takeWhile (fun c => !cIsSpace c)
    let argType := if typ = [] then none else some typ
    let s2 := (s1.drop typ.length).dropWhile cIsSpace
    (true, { blk with arguments := blk.arguments ++ [⟨name, argType, s2⟩] })

/-- Embedding of `process_parameter_tag` (argument.c): a required name token
(no leading-whitespace skip), then the remainder after whitespace as
description. -/
def process_parameter_tag (blk : Docblock) (content : CStr) : Bool × Docblock :=
  let name := content.takeWhile (fun c => !cIsSpace c)
  if name = [] then (false, blk)
  else
    let desc := (content.drop name.length).dropWhile cIsSpace
    (true, { blk with params := blk.params ++ [⟨name, desc⟩] })

/-- Embedding of `process_return_tag` (return.c): free and overwrite the
return description. -/
def process_return_tag (blk : Docblock) (content : CStr) : Bool × Docblock :=
  (true, { blk with return_desc := some content })

/-- Embedding of `parse_exitcode_content` (exitcode.c): skip whitespace, split
at the first space character; no space means the whole content is the code
with an empty description. -/
def parse_exitcode_content (content : CStr) : Option (CStr × CStr) :=
  let content := content.dropWhile cIsSpace
  if content = [] then none
  else
    match splitAtChar ' ' content with
    | none => some (content, [])
    | some (before, aft) => some (before, aft.dropWhile cIsSpace)

/-- Embedding of `process_exitcode_tag` (exitcode.c): append the parsed
(code, description) pair, or fail with no mutation. -/
def process_exitcode_tag (blk : Docblock) (content : CStr) : Bool × Docblock :=
  match parse_exitcode_content content with
  | none => (false, blk)
  | some (code, desc) => (true, { blk with exitcodes := blk.exitcodes ++ [⟨code, desc⟩] })

/-- Embedding of `get_alert_type` (alert.c). -/
def get_alert_type (tag : CStr) : CStr :=
  if tag = ("note".data) then ("NOTE".data)
  else if tag = ("tip".data) then ("TIP".data)
  else if tag = ("important".data) then ("IMPORTANT".data)
  else if tag = ("warning".data) then ("WARNING".data)
  else if tag = ("caution".data) then ("CAUTION".data)
  else if tag = ("info".data) then ("INFO".data)
  else if tag = ("danger".data) then ("DANGER".data)
  else if tag = ("hint".data) then ("TIP".data)
  else ("NOTE".data)

/-- Embedding of `process_alert_tag` (alert.c): append one alert with the
canonical type code and the verbatim content. -/
def process_alert_tag (blk : Docblock) (tag content : CStr) : Bool × Docblock :=
  (true, { blk with alerts := blk.alerts ++ [⟨get_alert_type tag, content⟩] })

/-- Embedding of `add_example_to_docblock` (example.c): append to an existing
example with a blank-line separator, otherwise store the content as given. -/
def add_example_to_docblock (blk : Docblock) (example_content : CStr) : Docblock :=
  match blk.example_text with
  | some e => { blk with example_text := some (e ++ ('\n' :: '\n' :: example_content)) }
  | none => { blk with example_text := some example_content }

/-- Embedding of `parse_option_content` (option.c).  With a pipe: the option
is the right-trimmed text before it, the description is everything after the
first space of the whitespace-skipped text after it, and the argument
specifier is the interior of the first angle-bracket pair found first in the
option token and otherwise in the post-pipe text.  Without a pipe: split at
the first space; the argument specifier search starts after an equals sign
when the option token has one. -/
def parse_option_content (content : CStr) : Option (CStr × CStr × Option CStr) :=
  let content := content.dropWhile cIsSpace
  if content = [] then none
  else
    match splitAtChar '|' content with
    | some (before, aft) =>
      let opt := rtrimSpaces before
      let descStart := aft.dropWhile cIsSpace
      let description :=
        match splitAtChar ' ' descStart with
        | some (_, d) => d
        | none => []
      let argFromOpt :=
        match splitAtChar '<' opt with
        | some (_, aftLt) =>
          match splitAtChar '>' aftLt with
          | some (inner, _) => some inner
          | none => none
        | none => none
      let arg_spec :=
        match argFromOpt with
        | some a => some a
        | none =>
          match splitAtChar '<' descStart with
          | some (_, aftLt) =>
            match splitAtChar '>' aftLt with
            | some (inner, _) => some inner
            | none => none
          | none => none
      some (opt, description, arg_spec)
    | none =>
      let (opt, description) :=
        match splitAtChar ' ' content with
        | some (before, aft) => (before, aft)
        | none => (content, [])
      let searchIn :=
        match splitAtChar '=' opt with
        | some (_, aftEq) => aftEq
        | none => opt
      let arg_spec :=
        match splitAtChar '<' searchIn with
        | some (_, aftLt) =>
          match splitAtChar '>' aftLt with
          | some (inner, _) => some inner
          | none => none
        | none => none
      some (opt, description, arg_spec)

/-- Embedding of `parse_see_content` (reference.c): a markdown-link shape is
recognised exactly when the first occurrences of the four bracket characters
exist in the order open-bracket, close-bracket, open-parenthesis,
close-parenthesis; the name and url are the texts strictly between the
respective pairs; every other non-empty content is a bare internal
reference.  The returned triple is (name, url, is_internal). -/
def parse_see_content (content0 : CStr) : Option (CStr × Option CStr × Bool) :=
  let content := content0.dropWhile cIsSpace
  if content = [] then none
  else
    match firstIdx '[' content, firstIdx ']' content,
          firstIdx '(' content, firstIdx ')' content with
    | some ob, some cb, some op, some cp =>
      if ob < cb ∧ cb < op ∧ op < cp then
        some ((content.drop (ob + 1)).take (cb - ob - 1),
              some ((content.drop (op + 1)).take (cp - op - 1)), false)
      else some (content, none, true)
    | _, _, _, _ => some (content, none, true)

/-! Continuation collectors and the tag dispatcher, from src/src/parsers/state.c
and example.c.  The read cursor of the C code is the list of lines that have
not been consumed yet; rewinding with fseek is returning the unconsumed
suffix. -/

/-- Predicate deciding whether a line continues multi-line tag content
(state.c line 115): a comment that is neither a tag line nor a special
annotation. -/
def contPred (l : CStr) : Bool :=
  is_comment_line l && !is_tag_line l && !is_special_annot l

/-- The text of a continuation line as taken by `state_collect_continued_content`:
everything after the first hash, with following whitespace skipped.  A line
with no hash yields `none`, matching the `continue` branch of the C loop. -/
def contText (l : CStr) : Option CStr :=
  match splitAtChar '#' l with
  | none => none
  | some (_, t) => some (t.dropWhile cIsSpace)

/-- Embedding of `state_collect_continued_content` (state.c): absorb each
following continuation line by appending a newline plus its text, stop at the
first other line and rewind the cursor before it. -/
def state_collect_continued_content (acc : CStr) : List CStr → CStr × List CStr
  | [] => (acc, [])
  | l :: rest =>
    if contPred l then
      match contText l with
      | none => state_collect_continued_content acc rest
      | some t => state_collect_continued_content (acc ++ ('\n' :: t)) rest
    else (acc, l :: rest)

/-- Embedding of `process_example_tag` (example.c): the same loop, except the
text after the hash keeps its leading whitespace. -/
def process_example_tag (acc : CStr) : List CStr → CStr × List CStr
  | [] => (acc, [])
  | l :: rest =>
    if contPred l then
      match splitAtChar '#' l with
      | none => process_example_tag acc rest
      | some (_, t) => process_example_tag (acc ++ ('\n' :: t)) rest
    else (acc, l :: rest)

/-- Embedding of `extract_shellcheck_directive` (shellcheck.c): drop leading
whitespace, one hash and the whitespace after it. -/
def extract_shellcheck_directive (l : CStr) : CStr :=
  match dropSpaces l with
  | '#' :: r => dropSpaces r
  | other => other

/-- Embedding of `parse_shellcheck_directive` (shellcheck.c): after a
disable= or enable= marker the code runs until whitespace or a hash, and a
reason may follow a hash; without a marker the whole directive is the code. -/
def parse_shellcheck_directive (directive : CStr) : CStr × Option CStr :=
  let fromMarker :=
    match splitAtSub ("disable=".data) directive with
    | some (_, aft) => some aft
    | none =>
      match splitAtSub ("enable=".data) directive with
      | some (_, aft) => some aft
      | none => none
  match fromMarker with
  | none => (directive, none)
  | some aft =>
    let code := aft.takeWhile (fun c => !cIsSpace c && c ≠ '#')
    let tail := aft.drop code.length
    let reason :=
      match splitAtChar '#' tail with
      | none => none
      | some (_, r) =>
        let r := r.dropWhile cIsSpace
        if r = [] then none else some r
    (code, reason)

/-- Embedding of `add_shellcheck_directive` (shellcheck.c): append a record
holding the parsed code, the full directive text and the optional reason. -/
def add_shellcheck_directive (blk : Docblock) (directive : CStr) : Docblock :=
  let (code, reason) := parse_shellcheck_directive directive
  { blk with shellcheck_directives := blk.shellcheck_directives ++ [⟨code, directive, reason⟩] }

/-- Embedding of `process_shellcheck_line` (shellcheck.c). -/
def process_shellcheck_line (blk : Docblock) (l : CStr) : Docblock :=
  if !is_shellcheck_directive l then blk
  else add_shellcheck_directive blk (extract_shellcheck_directive l)

/-- Embedding of `extract_shebang` (parser_engine.c): on a line starting with
hash-bang, the interpreter is the rest after spaces and tabs, stored only when
non-empty. -/
def extract_shebang (l : CStr) (blk : Docblock) : Docblock :=
  if startsWith ("#!".data) l then
    let interp := (l.drop 2).dropWhile (fun c => c = ' ' || c = '\t')
    if interp = [] then blk else { blk with interpreter := some interp }
  else blk

/-- The alert-family membership test of `state_process_tag` (state.c lines
238 to 242): the ten tag spellings that are dispatched to the alert
grammar. -/
def state_alert_tags (tag : CStr) : Bool :=
  tag = ("note".data) || tag = ("warning".data) || tag = ("error".data) ||
  tag = ("tip".data) || tag = ("important".data) || tag = ("info".data) ||
  tag = ("danger".data) || tag = ("hint".data) || tag = ("caution".data) ||
  tag = ("alert".data)

/-- Embedding of `state_process_tag` (state.c), the live tag dispatcher.  It
takes the current docblock, the in-docblock flag and the unconsumed lines,
and returns the success flag, the updated docblock, the updated flag and the
lines still unconsumed.  File-level tags are checked first, so the later
description branch of the C source is unreachable for the description tag;
it is kept verbatim to mirror the source. -/
def state_process_tag (tag content : CStr) (blk : Docblock) (in_docblock : Bool)
    (rest : List CStr) : Bool × Docblock × Bool × List CStr :=
  if is_file_level_tag tag then
    let r := process_file_metadata_tag blk tag content
    (r.1, r.2, in_docblock, rest)
  else if tag = ("function".data) then
    let fname :=
      match splitAtSub ("()".data) content with
      | some (before, []) => before
      | _ => content
    (true, { blk with function_name := some fname }, true, rest)
  else if tag = ("brief".data) then
    match blk.function_name with
    | none => (true, { blk with brief := some content }, in_docblock, rest)
    | some _ => (true, { blk with function_brief := some content }, in_docblock, rest)
  else if tag = ("description".data) then
    let r := state_collect_continued_content content rest
    match blk.function_name with
    | none => (true, { blk with description := some r.1 }, in_docblock, r.2)
    | some _ => (true, { blk with function_description := some r.1 }, in_docblock, r.2)
  else if tag = ("arg".data) then
    let r := process_argument_tag blk content
    (r.1, r.2, in_docblock, rest)
  else if tag = ("argument".data) then
    let r := process_argument_tag blk content
    (r.1, r.2, in_docblock, rest)
  else if tag = ("param".data) then
    let r := process_parameter_tag blk content
    (r.1, r.2, in_docblock, rest)
  else if tag = ("return".data) then
    let r := process_return_tag blk content
    (r.1, r.2, in_docblock, rest)
  else if tag = ("returns".data) then
    let r := process_return_tag blk content
    (r.1, r.2, in_docblock, rest)
  else if tag = ("exitcode".data) then
    let r := process_exitcode_tag blk content
    (r.1, r.2, in_docblock, rest)
  else if tag = ("example".data) then
    let r := process_example_tag content rest
    (true, add_example_to_docblock blk r.1, in_docblock, r.2)
  else if tag = ("stdout".data) then
    let r := state_collect_continued_content content rest
    (true, { blk with stdout_doc := some r.1 }, in_docblock, r.2)
  else if tag = ("stderr".data) then
    (true, { blk with stderr_doc := some content }, in_docblock, rest)
  else if tag = ("internal".data) then
    (true, { blk with is_internal := true }, in_docblock, rest)
  else if state_alert_tags tag then
    let r := process_alert_tag blk tag content
    (r.1, r.2, in_docblock, rest)
  else (false, blk, in_docblock, rest)

/-! The parser engine, from src/src/parsers/parser_engine.c. -/

/-- State of the body pass of `parse_shell_file`: the populated docblocks
(their number is the block count of the C code), the index of the current
block inside that array, and the in-docblock flag. -/
structure EState where
  blocks : List Docblock
  cur : Nat
  in_docblock : Bool
deriving Repr

/-- Embedding of the metadata pre-pass loop of `parse_shell_file`: shebang
lines feed the interpreter, lines starting exactly with the tag prefix feed
file-level tags into block zero, other comments are skipped, and the first
remaining line stops the pre-pass. -/
def metadata_prepass (blk : Docblock) : List CStr → Docblock
  | [] => blk
  | l :: rest =>
    if startsWith ("#!".data) l then metadata_prepass (extract_shebang l blk) rest
    else if startsWith ("# @".data) l then
      let blk :=
        match extract_tag_name l, extract_tag_content l with
        | some tag, some content =>
          if is_file_level_tag tag then (process_file_metadata_tag blk tag content).2 else blk
        | _, _ => blk
      metadata_prepass blk rest
    else if is_comment_line l then metadata_prepass blk rest
    else blk

/-- The shellcheck half-step of the body loop (parser_engine.c lines 183 to
187): on a shellcheck directive, when the current block is not the file block,
the directive is appended to the current block. -/
def engine_shellcheck_step (st : EState) (l : CStr) : EState :=
  if is_shellcheck_directive l && st.cur != 0 then
    let b := process_shellcheck_line (st.blocks.getD st.cur emptyDocblock) l
    { st with blocks := st.blocks.set st.cur b }
  else st

/-- The tag branch of the body loop (parser_engine.c lines 188 to 199): a
function tag first opens a fresh block which becomes current, then the tag is
dispatched to the current block. -/
def engine_tag_step (st1 : EState) (l : CStr) (rest : List CStr) : EState × List CStr :=
  match extract_tag_name l, extract_tag_content l with
  | some tag, some content =>
    let st2 :=
      if tag = ("function".data) then
        { st1 with blocks := st1.blocks ++ [emptyDocblock], cur := st1.blocks.length }
      else st1
    let r := state_process_tag tag content (st2.blocks.getD st2.cur emptyDocblock)
               st2.in_docblock rest
    ({ st2 with blocks := st2.blocks.set st2.cur r.2.1, in_docblock := r.2.2.1 }, r.2.2.2)
  | _, _ => (st1, rest)

/-- The function-declaration branch of the body loop (parser_engine.c lines
200 to 219): a new block is opened unless a docblock is being accumulated on
a non-file block, the declared name is assigned only when none is set, a
differing name is merely logged, and the in-docblock flag is cleared. -/
def engine_decl_step (st1 : EState) (l : CStr) : EState :=
  match extract_function_name l with
  | some fn =>
    let st2 :=
      if !st1.in_docblock || st1.cur = 0 then
        { st1 with blocks := st1.blocks ++ [emptyDocblock], cur := st1.blocks.length }
      else st1
    let blk := st2.blocks.getD st2.cur emptyDocblock
    let blk :=
      if blk.function_name = none then { blk with function_name := some fn } else blk
    { st2 with blocks := st2.blocks.set st2.cur blk, in_docblock := false }
  | none => st1

/-- One iteration of the body loop of `parse_shell_file` on line `l` with
unconsumed suffix `rest`.  Mirrors the C nesting: the shellcheck append, then
the tag branch, then the function-declaration branch — all nested under the
comment test — and the flag reset on any other line. -/
def processLine (st : EState) (l : CStr) (rest : List CStr) : EState × List CStr :=
  if is_comment_line l then
    let st1 := engine_shellcheck_step st l
    if is_tag_line l then engine_tag_step st1 l rest
    else if is_function_declaration l then (engine_decl_step st1 l, rest)
    else (st1, rest)
  else ({ st with in_docblock := false }, rest)

/-- The body loop of `parse_shell_file`, driven by fuel.  Each iteration
consumes at least the head line, so fuel equal to the number of lines never
runs out before the lines do; the loop also stops once the block count
reaches the configured maximum. -/
def body_loop (max_blocks : Nat) : Nat → EState → List CStr → EState
  | _, st, [] => st
  | 0, st, _ :: _ => st
  | fuel + 1, st, l :: rest =>
    if st.blocks.length < max_blocks then
      let p := processLine st l rest
      body_loop max_blocks fuel p.1 p.2
    else st

/-- Embedding of `parse_shell_file` (parser_engine.c) for a file modelled as
`none` (the file cannot be opened) or `some lines`.  The result is the block
count returned by the C function together with the populated docblocks; a
zero maximum or an unopenable file yields count zero and no blocks. -/
def parse_shell_file (file_path : CStr) (file : Option (List CStr)) (max_blocks : Nat) :
    Nat × List Docblock :=
  if max_blocks = 0 then (0, [])
  else
    match file with
    | none => (0, [])
    | some lines =>
      let b0 := metadata_prepass { emptyDocblock with file_name := some file_path } lines
      let stF := body_loop max_blocks lines.length ⟨[b0], 0, false⟩ lines
      (stF.blocks.length, stF.blocks)

/-! Supporting lemmas about the string primitives. -/

theorem startsWith_iff (p s : CStr) : startsWith p s = true ↔ ∃ t, s = p ++ t := by
  induction p generalizing s with
  | nil => simp [startsWith]
  | cons c cs ih =>
    cases s with
    | nil => simp [startsWith]
    | cons x xs =>
      simp only [startsWith, Bool.and_eq_true, decide_eq_true_eq, ih, List.cons_append,
        List.cons.injEq]
      constructor
      · rintro ⟨rfl, t, rfl⟩
        exact ⟨t, rfl, rfl⟩
      · rintro ⟨t, rfl, rfl⟩
        exact ⟨rfl, t, rfl⟩

theorem startsWith_append_self (p t : CStr) : startsWith p (p ++ t) = true :=
  (startsWith_iff p (p ++ t)).2 ⟨t, rfl⟩

theorem splitAtChar_eq_some (c : Char) (s a b : CStr)
    (h : splitAtChar c s = some (a, b)) : s = a ++ c :: b ∧ c ∉ a := by
  induction s generalizing a b with
  | nil => simp [splitAtChar] at h
  | cons x xs ih =>
    by_cases hx : x = c
    · simp only [splitAtChar, if_pos hx, Option.some.injEq, Prod.mk.injEq] at h
      obtain ⟨rfl, rfl⟩ := h
      simp [hx]
    · simp only [splitAtChar, if_neg hx, Option.map_eq_some'] at h
      obtain ⟨⟨a0, b0⟩, h0, hab⟩ := h
      simp only [Prod.mk.injEq] at hab
      obtain ⟨rfl, rfl⟩ := hab
      obtain ⟨rfl, hnot⟩ := ih a0 b0 h0
      refine ⟨rfl, ?_⟩
      simp [hnot, Ne.symm hx]

theorem splitAtChar_mk (c : Char) (a b : CStr) (ha : c ∉ a) :
    splitAtChar c (a ++ c :: b) = some (a, b) := by
  induction a with
  | nil => simp [splitAtChar]
  | cons x xs ih =>
    simp only [List.mem_cons, not_or] at ha
    simp [splitAtChar, Ne.symm ha.1, ha.1, ih ha.2]

theorem splitAtChar_eq_none (c : Char) (s : CStr) (h : splitAtChar c s = none) : c ∉ s := by
  induction s with
  | nil => simp
  | cons x xs ih =>
    by_cases hx : x = c
    · simp [splitAtChar, hx] at h
    · simp only [splitAtChar, if_neg hx, Option.map_eq_none'] at h
      simp [Ne.symm hx, ih h]

theorem splitAtChar_isSome_of_mem (c : Char) (s : CStr) (h : c ∈ s) :
    (splitAtChar c s).isSome := by
  cases hs : splitAtChar c s with
  | none => exact absurd h (splitAtChar_eq_none c s hs)
  | some p => simp

theorem firstIdx_eq_some (c : Char) (s : CStr) (j : Nat)
    (h : firstIdx c s = some j) :
    s = s.take j ++ c :: s.drop (j + 1) ∧ c ∉ s.take j ∧ j < s.length := by
  induction s generalizing j with
  | nil => simp [firstIdx] at h
  | cons x xs ih =>
    by_cases hx : x = c
    · simp [firstIdx, hx] at h
      subst h
      simp [hx]
    · simp only [firstIdx, if_neg hx, Option.map_eq_some'] at h
      obtain ⟨j0, h0, rfl⟩ := h
      obtain ⟨he, hnot, hlt⟩ := ih j0 h0
      refine ⟨?_, ?_, by simpa using hlt⟩
      · simpa using congrArg (x :: ·) he
      · simp [Ne.symm hx, hnot]

theorem firstIdx_mk (c : Char) (a b : CStr) (ha : c ∉ a) :
    firstIdx c (a ++ c :: b) = some a.length := by
  induction a with
  | nil => simp [firstIdx]
  | cons x xs ih =>
    simp only [List.mem_cons, not_or] at ha
    simp [firstIdx, Ne.symm ha.1, ha.1, ih ha.2]

theorem firstIdx_eq_none (c : Char) (s : CStr) (h : firstIdx c s = none) : c ∉ s := by
  induction s with
  | nil => simp
  | cons x xs ih =>
    by_cases hx : x = c
    · simp [firstIdx, hx] at h
    · simp only [firstIdx, if_neg hx, Option.map_eq_none'] at h
      simp [Ne.symm hx, ih h]

theorem dropSpaces_append_of_all (ws t : CStr) (h : ∀ c ∈ ws, cIsSpace c = true) :
    dropSpaces (ws ++ t) = dropSpaces t := by
  induction ws with
  | nil => rfl
  | cons c cs ih =>
    have hc := h c (by simp)
    simp only [dropSpaces, List.cons_append, List.dropWhile_cons, hc, if_true]
    exact ih (fun x hx => h x (by simp [hx]))

theorem dropSpaces_of_headD (l : CStr) (h : cIsSpace (l.headD ' ') = false) :
    dropSpaces l = l := by
  cases l with
  | nil => rfl
  | cons c cs =>
    simp only [List.headD_cons] at h
    simp [dropSpaces, List.dropWhile_cons, h]

theorem dropSpaces_decomp (l : CStr) :
    l = l.takeWhile cIsSpace ++ dropSpaces l ∧
      ∀ c ∈ l.takeWhile cIsSpace, cIsSpace c = true := by
  refine ⟨(List.takeWhile_append_dropWhile cIsSpace l).symm, ?_⟩
  intro c hc
  exact List.mem_takeWhile_imp hc

theorem headD_set_succ {α : Type} (l : List α) (n : Nat) (b d : α) :
    (l.set (n + 1) b).headD d = l.headD d := by
  cases l <;> simp

theorem headD_set_zero {α : Type} (l : List α) (b d : α) (h : l ≠ []) :
    (l.set 0 b).headD d = b := by
  cases l with
  | nil => exact absurd rfl h
  | cons x xs => simp

theorem headD_append_left {α : Type} (l m : List α) (d : α) (h : l ≠ []) :
    ((l ++ m) : List α).headD d = l.headD d := by
  cases l with
  | nil => exact absurd rfl h
  | cons x xs => simp

theorem getD_zero_eq_headD {α : Type} (l : List α) (d : α) : l.getD 0 d = l.headD d := by
  cases l <;> simp [List.getD]

/-! Claim C1: repeated scalar tags. -/

/-- Claim C1, counterexample.  The claim states that a second description tag
on the same docblock appends to the stored description with a newline
separator.  In the code the description tag is in the file-level tag list, so
`state_process_tag` routes it to `process_file_metadata_tag`, which frees and
overwrites: after processing description A and then description B the stored
description is B, not A-newline-B. -/
theorem C1_counterexample :
    (state_process_tag ("description".data) ("B".data)
      (state_process_tag ("description".data) ("A".data) emptyDocblock false []).2.1
      false []).2.1.description = some ("B".data) ∧
    (state_process_tag ("description".data) ("B".data)
      (state_process_tag ("description".data) ("A".data) emptyDocblock false []).2.1
      false []).2.1.description ≠ some ("A\nB".data) := by
  exact ⟨rfl, by decide⟩

/-- Claim C1, amended.  Every scalar tag the live dispatcher recognises
(brief, description, stdout, stderr) overwrites: processing the tag a second
time yields the same docblock as processing only the second occurrence, so no
content accumulates — including for the description tag, which is dispatched
as a file-level tag and overwritten like the others.  The stdin, replacement
and eol tags are not recognised by `state_process_tag` at all: they fail and
leave the state unchanged rather than storing a value. -/
theorem C1_scalar_tags_overwrite (blk : Docblock) (c1 c2 : CStr) (d : Bool)
    (rest : List CStr) :
    ((state_process_tag ("brief".data) c2
        (state_process_tag ("brief".data) c1 blk d rest).2.1 d rest).2.1 =
      (state_process_tag ("brief".data) c2 blk d rest).2.1) ∧
    ((state_process_tag ("description".data) c2
        (state_process_tag ("description".data) c1 blk d rest).2.1 d rest).2.1 =
      (state_process_tag ("description".data) c2 blk d rest).2.1) ∧
    ((state_process_tag ("stdout".data) c2
        (state_process_tag ("stdout".data) c1 blk d rest).2.1 d rest).2.1 =
      (state_process_tag ("stdout".data) c2 blk d rest).2.1) ∧
    ((state_process_tag ("stderr".data) c2
        (state_process_tag ("stderr".data) c1 blk d rest).2.1 d rest).2.1 =
      (state_process_tag ("stderr".data) c2 blk d rest).2.1) ∧
    state_process_tag ("stdin".data) c1 blk d rest = (false, blk, d, rest) ∧
    state_process_tag ("replacement".data) c1 blk d rest = (false, blk, d, rest) ∧
    state_process_tag ("eol".data) c1 blk d rest = (false, blk, d, rest) := by
  refine ⟨?_, rfl, rfl, rfl, rfl, rfl, rfl⟩
  cases hfn : blk.function_name with
  | none => simp [state_process_tag, is_file_level_tag, hfn]
  | some v => simp [state_process_tag, is_file_level_tag, hfn]

/-! Claim C2: option tag parsing. -/

/-- Claim C2, counterexample.  The claim's example says that parsing the
option content dash-v pipe verbose output yields the description verbose
output; the code skips one whitespace-delimited token after the pipe, so the
description is only the word output. -/
theorem C2_counterexample :
    parse_option_content ("-v | verbose output".data) ≠
      some (("-v".data), ("verbose output".data), none) := by
  decide

/-- Claim C2, amended.  In the pipe-separated shape the option token is
everything before the pipe with trailing whitespace trimmed, and the
description skips exactly one whitespace-delimited token after the pipe and
takes the rest: dash-v pipe verbose output parses to option dash-v,
description output, and no argument specifier. -/
theorem C2_option_pipe_example :
    parse_option_content ("-v | verbose output".data) =
      some (("-v".data), ("output".data), none) := by
  rfl

/-! Claim C7: malformed argument tag. -/

/-- Claim C7.  An argument tag whose content is empty or whitespace-only has
no name token, so the tag fails and the docblock is returned completely
unchanged, both through `process_argument_tag` itself and through the
dispatcher for the arg and argument spellings; the failure stays local to the
tag. -/
theorem C7_empty_arg_unchanged (blk : Docblock) (content : CStr) (d : Bool)
    (rest : List CStr) (h : ∀ c ∈ content, cIsSpace c = true) :
    process_argument_tag blk content = (false, blk) ∧
    state_process_tag ("arg".data) content blk d rest = (false, blk, d, rest) ∧
    state_process_tag ("argument".data) content blk d rest = (false, blk, d, rest) := by
  have hdrop : content.dropWhile cIsSpace = [] := by
    rw [List.dropWhile_eq_nil_iff]
    exact fun a ha => h a ha
  have harg : process_argument_tag blk content = (false, blk) := by
    simp [process_argument_tag, hdrop]
  refine ⟨harg, ?_, ?_⟩ <;>
    simp [state_process_tag, is_file_level_tag, harg]

/-- Claim C7, witness at the whitespace-only content consisting of one
space. -/
theorem C7_witness :
    process_argument_tag emptyDocblock ([' ']) = (false, emptyDocblock) ∧
    state_process_tag ("arg".data) ([' ']) emptyDocblock false [] =
      (false, emptyDocblock, false, []) ∧
    state_process_tag ("argument".data) ([' ']) emptyDocblock false [] =
      (false, emptyDocblock, false, []) :=
  C7_empty_arg_unchanged emptyDocblock ([' ']) false [] (by decide)

/-! Claim C8: example accumulation. -/

/-- Claim C8.  On a docblock with no stored example, the first example body
is stored unchanged and a second one is appended after a blank-line
separator, both directly through `add_example_to_docblock` and through two
example tags dispatched by `state_process_tag` (with no continuation lines
following). -/
theorem C8_example_accumulates (blk : Docblock) (e1 e2 c1 c2 : CStr) (d : Bool)
    (h : blk.example_text = none) :
    (add_example_to_docblock blk e1).example_text = some e1 ∧
    (add_example_to_docblock (add_example_to_docblock blk e1) e2).example_text =
      some (e1 ++ ('\n' :: '\n' :: e2)) ∧
    ((state_process_tag ("example".data) c2
        (state_process_tag ("example".data) c1 blk d []).2.1 d []).2.1).example_text =
      some (c1 ++ ('\n' :: '\n' :: c2)) := by
  refine ⟨?_, ?_, ?_⟩
  · simp [add_example_to_docblock, h]
  · simp [add_example_to_docblock, h]
  · simp [state_process_tag, is_file_level_tag, process_example_tag,
      add_example_to_docblock, h]

/-- Claim C8, witness on the empty docblock with single-letter bodies. -/
theorem C8_witness :
    (add_example_to_docblock emptyDocblock ("a".data)).example_text = some ("a".data) ∧
    (add_example_to_docblock (add_example_to_docblock emptyDocblock ("a".data))
        ("b".data)).example_text = some (("a".data) ++ ('\n' :: '\n' :: ("b".data))) ∧
    ((state_process_tag ("example".data) ("d".data)
        (state_process_tag ("example".data) ("c".data) emptyDocblock false []).2.1
        false []).2.1).example_text =
      some (("c".data) ++ ('\n' :: '\n' :: ("d".data))) :=
  C8_example_accumulates emptyDocblock ("a".data) ("b".data) ("c".data) ("d".data)
    false rfl

/-! Claim C10: the since tag. -/

/-- Claim C10.  Processing the since tag stores its content in the
author_contact field, overwriting whatever was there and leaving every other
field unchanged; in particular a later since tag replaces the recorded author
contact, since the docblock has no separate since field. -/
theorem C10_since_stores_author_contact (blk : Docblock) (c c2 : CStr) (d : Bool)
    (rest : List CStr) :
    state_process_tag ("since".data) c blk d rest =
      (true, { blk with author_contact := some c }, d, rest) ∧
    (state_process_tag ("since".data) c2
        (state_process_tag ("since".data) c blk d rest).2.1 d rest).2.1.author_contact =
      some c2 := by
  exact ⟨rfl, rfl⟩

/-! Claim C4: tag-line classification. -/

/-- Claim C4, counterexample.  The claim states that a comment in the
colon-delimited form, such as a double-hash comment containing a tag name
followed by a colon, is classified as a tag line; `is_tag_line` only accepts
the literal hash-space-at prefix, so this line is not classified as a tag
line. -/
theorem C4_counterexample : is_tag_line ("## @brief: text".data) = false := by
  decide

/-- Claim C4, amended.  A line is reported as a tag line exactly when, after
leading whitespace, it starts with the literal three-character prefix
hash, space, at-sign; the colon-delimited alternative comment dialect is not
part of line classification. -/
theorem C4_tag_line_iff (l : CStr) :
    is_tag_line l = true ↔
      ∃ ws rest, l = ws ++ (("# @".data) ++ rest) ∧ ∀ c ∈ ws, cIsSpace c = true := by
  constructor
  · intro h
    obtain ⟨t, ht⟩ := (startsWith_iff _ _).1 h
    obtain ⟨hdec, hws⟩ := dropSpaces_decomp l
    refine ⟨l.takeWhile cIsSpace, t, ?_, hws⟩
    nth_rewrite 1 [hdec]
    rw [ht]
  · rintro ⟨ws, rest, rfl, hws⟩
    unfold is_tag_line
    rw [dropSpaces_append_of_all ws _ hws, dropSpaces_of_headD ((("# @".data)) ++ rest) rfl]
    exact startsWith_append_self _ _

/-! Claim C5: function-declaration classification. -/

/-- Modelled from the claim wording of C5 (for refutation): the bare
declaration shape name, parentheses, then only whitespace before the opening
brace, with the name a non-empty run of alphanumerics and underscores. -/
def c5_bare_shape (s : CStr) : Bool :=
  match splitAtChar '(' s with
  | none => false
  | some (name, aftOpen) =>
    !(name = []) && name.all isNameChar &&
    (match splitAtChar ')' aftOpen with
     | none => false
     | some (_, aftClose) =>
       match splitAtChar '\x7b' aftClose with
       | none => false
       | some (between, _) => between.all cIsSpace)

/-- Modelled from the claim wording of C5 (for refutation): a line is of the
claimed form exactly when, after leading whitespace, it is either the word
function, whitespace, and a bare declaration, or a bare declaration
directly. -/
def c5_claim_shape (l : CStr) : Bool :=
  let t := dropSpaces l
  (startsWith ("function".data) t && cIsSpace (t.getD 8 'a') &&
    c5_bare_shape (dropSpaces (t.drop 8))) ||
  c5_bare_shape t

/-- Claim C5, counterexample.  The claim says `is_function_declaration`
accepts exactly the two declaration forms; the line consisting of the word
function followed by two bare words has neither parentheses nor a brace, yet
the function accepts it, because its keyword branch checks nothing beyond the
word function and one whitespace character. -/
theorem C5_counterexample :
    is_function_declaration ("function hello world".data) = true ∧
    c5_claim_shape ("function hello world".data) = false := by
  decide

/-- Claim C5, amended.  `is_function_declaration` returns true exactly for
lines that, after leading whitespace, either start with the word function
followed by one whitespace character — with the remainder of the line
unchecked — or have the bare shape: a non-empty name of alphanumerics and
underscores, an opening parenthesis, any text up to the first closing
parenthesis, then only whitespace before the next opening brace. -/
theorem C5_function_decl_iff (l : CStr) :
    is_function_declaration l = true ↔
      (∃ c rest, dropSpaces l = ("function".data) ++ c :: rest ∧ cIsSpace c = true) ∨
      (∃ name mid sp rest,
        dropSpaces l = name ++ '(' :: (mid ++ ')' :: (sp ++ '\x7b' :: rest)) ∧
        name ≠ [] ∧ (∀ ch ∈ name, isNameChar ch = true) ∧ ')' ∉ mid ∧
        (∀ ch ∈ sp, cIsSpace ch = true)) := by
  by_cases hkw : (startsWith ("function".data) (dropSpaces l) &&
      cIsSpace ((dropSpaces l).getD 8 'a')) = true
  · constructor
    · intro _
      left
      obtain ⟨h1, h2⟩ := Bool.and_eq_true_iff.1 hkw
      obtain ⟨t, ht⟩ := (startsWith_iff _ _).1 h1
      rw [ht, List.getD_append_right] at h2
      · cases t with
        | nil => exact absurd h2 (by decide)
        | cons c rest => exact ⟨c, rest, ht, by simpa using h2⟩
      · decide
    · intro _
      simp only [is_function_declaration]
      rw [if_pos hkw]
  · have hbare : is_function_declaration l =
        (match splitAtChar '(' (dropSpaces l) with
         | none => false
         | some (before, aftOpen) =>
           if before = [] then false
           else if before.all isNameChar then
             match splitAtChar ')' aftOpen with
             | none => false
             | some (_, aftClose) =>
               match splitAtChar '\x7b' aftClose with
               | none => false
               | some (between, _) => between.all cIsSpace
           else false) := by
      simp only [is_function_declaration]
      rw [if_neg hkw]
    have hnotleft : ¬ ∃ c rest, dropSpaces l = ("function".data) ++ c :: rest ∧
        cIsSpace c = true := by
      rintro ⟨c, rest, hpos, hc⟩
      apply hkw
      rw [hpos]
      rw [Bool.and_eq_true_iff]
      refine ⟨startsWith_append_self _ _, ?_⟩
      rw [List.getD_append_right]
      · simpa using hc
      · decide
    rw [hbare]
    constructor
    · intro h
      right
      cases hsplit : splitAtChar '(' (dropSpaces l) with
      | none => rw [hsplit] at h; simp at h
      | some p =>
        obtain ⟨before, aftOpen⟩ := p
        rw [hsplit] at h
        simp only at h
        by_cases hb : before = []
        · rw [if_pos hb] at h; simp at h
        · rw [if_neg hb] at h
          by_cases hall : before.all isNameChar
          · rw [if_pos hall] at h
            cases hsplit2 : splitAtChar ')' aftOpen with
            | none => rw [hsplit2] at h; simp at h
            | some q =>
              obtain ⟨mid, aftClose⟩ := q
              rw [hsplit2] at h
              simp only at h
              cases hsplit3 : splitAtChar '\x7b' aftClose with
              | none => rw [hsplit3] at h; simp at h
              | some w =>
                obtain ⟨between, rest2⟩ := w
                rw [hsplit3] at h
                simp only at h
                obtain ⟨he1, _⟩ := splitAtChar_eq_some _ _ _ _ hsplit
                obtain ⟨he2, hmid⟩ := splitAtChar_eq_some _ _ _ _ hsplit2
                obtain ⟨he3, _⟩ := splitAtChar_eq_some _ _ _ _ hsplit3
                refine ⟨before, mid, between, rest2, ?_, hb, ?_, hmid, ?_⟩
                · rw [he1, he2, he3]
                · exact fun ch hch => List.all_eq_true.1 hall ch hch
                · exact fun ch hch => List.all_eq_true.1 h ch hch
          · rw [if_neg hall] at h; simp at h
    · rintro (hleft | ⟨name, mid, sp, rest, hpos, hne, hname, hmid, hsp⟩)
      · exact absurd hleft hnotleft
      · have hparen : '(' ∉ name := by
          intro hmem
          have := hname '(' hmem
          simp [isNameChar] at this
        have hbrace : '\x7b' ∉ sp := by
          intro hmem
          have := hsp '\x7b' hmem
          simp [cIsSpace] at this
        rw [hpos, splitAtChar_mk _ _ _ hparen]
        simp only
        rw [if_neg hne, if_pos (List.all_eq_true.2 hname),
          splitAtChar_mk _ _ _ hmid]
        simp only
        rw [splitAtChar_mk _ _ _ hbrace]
        simp only
        exact List.all_eq_true.2 hsp

/-- Stepping lemma for first-occurrence indices: when `s` is known to be
`pre` then `x` then `r` and the first occurrence of `ch` lies strictly after
`pre`, the remainder `r` splits at the first occurrence of `ch`. -/
theorem firstIdx_step (ch x : Char) (s pre r : CStr) (j : Nat)
    (hs : s = pre ++ x :: r) (hj : firstIdx ch s = some j) (hlt : pre.length < j) :
    ∃ mid r2, r = mid ++ ch :: r2 ∧ ch ∉ pre ∧ ch ≠ x ∧ ch ∉ mid ∧
      j = pre.length + 1 + mid.length := by
  obtain ⟨hdecomp, hnot, hjlen⟩ := firstIdx_eq_some ch s j hj
  have hslen : s.length = pre.length + 1 + r.length := by
    rw [hs]
    simp
    omega
  have htake : s.take j = pre ++ x :: r.take (j - pre.length - 1) := by
    have hk : j - pre.length = (j - pre.length - 1) + 1 := by omega
    rw [hs, List.take_append_eq_append_take, List.take_of_length_le (le_of_lt hlt)]
    congr 1
    rw [hk, List.take_succ_cons]
    simp
  have hmem := hnot
  rw [htake] at hmem
  simp only [List.mem_append, List.mem_cons, not_or] at hmem
  obtain ⟨hpre, hx, hmid⟩ := hmem
  have htklen : (r.take (j - pre.length - 1)).length = j - pre.length - 1 := by
    rw [List.length_take]
    omega
  refine ⟨r.take (j - pre.length - 1), s.drop (j + 1), ?_, hpre, hx, hmid, ?_⟩
  · have hre : s = pre ++ x :: (r.take (j - pre.length - 1) ++ ch :: s.drop (j + 1)) := by
      nth_rewrite 1 [hdecomp]
      rw [htake]
      simp
    nth_rewrite 1 [hs] at hre
    have hcanc := List.append_cancel_left hre
    injection hcanc with hx2 hr
  · rw [htklen]
    omega

/-! Claim C9: see-reference parsing. -/

/-- The markdown-link shape of a see-tag content, written as an explicit
decomposition: all four bracket characters occur, in the order open bracket,
close bracket, open parenthesis, close parenthesis, each shown occurrence
being the first of its character. -/
def SeeShape (content : CStr) : Prop :=
  ∃ a b c d e : CStr,
    content = a ++ '[' :: (b ++ ']' :: (c ++ '(' :: (d ++ ')' :: e))) ∧
    '[' ∉ a ∧ ']' ∉ a ∧ ']' ∉ b ∧ '(' ∉ a ∧ '(' ∉ b ∧ '(' ∉ c ∧
    ')' ∉ a ∧ ')' ∉ b ∧ ')' ∉ c ∧ ')' ∉ d

/-- Claim C9.  For see-tag content that is non-empty and has no leading
whitespace (as all content produced by the tag extractor is): when the
content decomposes at the first occurrences of the four bracket characters in
the order open bracket, close bracket, open parenthesis, close parenthesis,
the reference is parsed as a markdown link whose name is the text between the
square brackets and whose url is the text between the parentheses, with
internal false; in every other case the whole content becomes the reference
name with internal true and no url. -/
theorem C9_see_reference_spec (content : CStr)
    (h : cIsSpace (content.headD ' ') = false) :
    (∀ a b c d e : CStr,
        content = a ++ '[' :: (b ++ ']' :: (c ++ '(' :: (d ++ ')' :: e))) →
        '[' ∉ a → ']' ∉ a → ']' ∉ b → '(' ∉ a → '(' ∉ b → '(' ∉ c →
        ')' ∉ a → ')' ∉ b → ')' ∉ c → ')' ∉ d →
        parse_see_content content = some (b, some d, false)) ∧
    (¬ SeeShape content → parse_see_content content = some (content, none, true)) := by
  have hne : content ≠ [] := by
    intro he
    rw [he] at h
    exact absurd h (by decide)
  have hdrop : content.dropWhile cIsSpace = content := dropSpaces_of_headD content h
  constructor
  · intro a b c d e hEq h1 h2 h3 h4 h5 h6 h7 h8 h9 h10
    have hfi1 : firstIdx '[' content = some a.length := by
      rw [hEq]
      exact firstIdx_mk _ _ _ h1
    have hfi2 : firstIdx ']' content = some (a.length + 1 + b.length) := by
      have hsh : content = (a ++ '[' :: b) ++ ']' :: (c ++ '(' :: (d ++ ')' :: e)) := by
        rw [hEq]; simp
      rw [hsh, firstIdx_mk]
      · simp
        omega
      · simp only [List.mem_append, List.mem_cons, not_or]
        exact ⟨h2, by decide, h3⟩
    have hfi3 : firstIdx '(' content = some (a.length + 1 + b.length + 1 + c.length) := by
      have hsh : content = (a ++ '[' :: (b ++ ']' :: c)) ++ '(' :: (d ++ ')' :: e) := by
        rw [hEq]; simp
      rw [hsh, firstIdx_mk]
      · simp
        omega
      · simp only [List.mem_append, List.mem_cons, not_or]
        exact ⟨h4, by decide, h5, by decide, h6⟩
    have hfi4 : firstIdx ')' content =
        some (a.length + 1 + b.length + 1 + c.length + 1 + d.length) := by
      have hsh : content = (a ++ '[' :: (b ++ ']' :: (c ++ '(' :: d))) ++ ')' :: e := by
        rw [hEq]; simp
      rw [hsh, firstIdx_mk]
      · simp
        omega
      · simp only [List.mem_append, List.mem_cons, not_or]
        exact ⟨h7, by decide, h8, by decide, h9, by decide, h10⟩
    have hname : (content.drop (a.length + 1)).take
        (a.length + 1 + b.length - a.length - 1) = b := by
      have hsh : content = (a ++ ['[']) ++ (b ++ ']' :: (c ++ '(' :: (d ++ ')' :: e))) := by
        rw [hEq]; simp
      rw [hsh, List.drop_left' (by simp)]
      have hidx : a.length + 1 + b.length - a.length - 1 = b.length := by omega
      rw [hidx, List.take_left' rfl]
    have hurl : (content.drop (a.length + 1 + b.length + 1 + c.length + 1)).take
        (a.length + 1 + b.length + 1 + c.length + 1 + d.length -
          (a.length + 1 + b.length + 1 + c.length) - 1) = d := by
      have hsh : content = (a ++ '[' :: (b ++ ']' :: (c ++ ['(']))) ++ (d ++ ')' :: e) := by
        rw [hEq]; simp
      rw [hsh, List.drop_left']
      · have hidx : a.length + 1 + b.length + 1 + c.length + 1 + d.length -
            (a.length + 1 + b.length + 1 + c.length) - 1 = d.length := by omega
        rw [hidx, List.take_left' rfl]
      · simp
        omega
    simp only [parse_see_content, hdrop, if_neg hne, hfi1, hfi2, hfi3, hfi4]
    rw [if_pos (by omega : a.length < a.length + 1 + b.length ∧
        a.length + 1 + b.length < a.length + 1 + b.length + 1 + c.length ∧
        a.length + 1 + b.length + 1 + c.length <
          a.length + 1 + b.length + 1 + c.length + 1 + d.length)]
    rw [hname, hurl]
  · intro hnshape
    rcases hf1 : firstIdx '[' content with _ | ob
    · simp [parse_see_content, hdrop, hne, hf1]
    rcases hf2 : firstIdx ']' content with _ | cb
    · simp [parse_see_content, hdrop, hne, hf1, hf2]
    rcases hf3 : firstIdx '(' content with _ | op
    · simp [parse_see_content, hdrop, hne, hf1, hf2, hf3]
    rcases hf4 : firstIdx ')' content with _ | cp
    · simp [parse_see_content, hdrop, hne, hf1, hf2, hf3, hf4]
    by_cases hord : ob < cb ∧ cb < op ∧ op < cp
    · exfalso
      apply hnshape
      obtain ⟨hdec1, hnot1, hoblen⟩ := firstIdx_eq_some '[' content ob hf1
      have hpre1len : (content.take ob).length = ob := by
        rw [List.length_take]
        omega
      obtain ⟨b, r2, hb, hc2a, _, hc2b, hcb⟩ :=
        firstIdx_step ']' '[' content (content.take ob) (content.drop (ob + 1)) cb
          hdec1 hf2 (by omega)
      have hdec2 : content = (content.take ob ++ '[' :: b) ++ ']' :: r2 := by
        nth_rewrite 1 [hdec1]
        rw [hb]
        simp
      have hpre2len : (content.take ob ++ '[' :: b).length = cb := by
        simp [hpre1len]
        omega
      obtain ⟨c2, r3, hr2, hc3a, _, hc3b, hop⟩ :=
        firstIdx_step '(' ']' content (content.take ob ++ '[' :: b) r2 op
          hdec2 hf3 (by omega)
      have hdec3 : content = ((content.take ob ++ '[' :: b) ++ ']' :: c2) ++ '(' :: r3 := by
        nth_rewrite 1 [hdec2]
        rw [hr2]
        simp
      have hpre3len : ((content.take ob ++ '[' :: b) ++ ']' :: c2).length = op := by
        simp [hpre1len]
        omega
      obtain ⟨d, e, hr3, hc4a, _, hc4b, hcp⟩ :=
        firstIdx_step ')' '(' content ((content.take ob ++ '[' :: b) ++ ']' :: c2) r3 cp
          hdec3 hf4 (by omega)
      simp only [List.mem_append, List.mem_cons, not_or] at hc3a hc4a
      refine ⟨content.take ob, b, c2, d, e, ?_, hnot1, hc2a, hc2b, ?_, ?_, hc3b,
        ?_, ?_, ?_, hc4b⟩
      · nth_rewrite 1 [hdec3]
        rw [hr3]
        simp
      · tauto
      · tauto
      · tauto
      · tauto
      · tauto
    · simp [parse_see_content, hdrop, hne, hf1, hf2, hf3, hf4, hord]

/-- Claim C9, witness: a concrete markdown link and a concrete bare
reference. -/
theorem C9_witness :
    parse_see_content ("[N](U)".data) = some (("N".data), some ("U".data), false) ∧
    parse_see_content ("plain".data) = some (("plain".data), none, true) := by
  constructor
  · exact (C9_see_reference_spec ("[N](U)".data) (by decide)).1
      [] ("N".data) [] ("U".data) [] (by decide) (by decide) (by decide) (by decide)
      (by decide) (by decide) (by decide) (by decide) (by decide) (by decide) (by decide)
  · refine (C9_see_reference_spec ("plain".data) (by decide)).2 ?_
    rintro ⟨a, b, c, d, e, hEq, -⟩
    have hmem : '[' ∈ ("plain".data) := by
      rw [hEq]
      simp
    exact absurd hmem (by decide)

/-! Claim C6: the continuation collector. -/

/-- A comment line contains a hash character. -/
theorem mem_hash_of_comment (l : CStr) (h : is_comment_line l = true) : '#' ∈ l := by
  unfold is_comment_line at h
  split at h
  · next heq =>
      have hm : '#' ∈ dropSpaces l := by
        rw [heq]
        simp
      exact (List.dropWhile_sublist cIsSpace).subset hm
  · simp at h

/-- Characterisation of the continuation collector: it folds the text of the
longest prefix of continuation lines onto the accumulated content, separated
by newlines, and leaves the cursor on the first line that is not a
continuation line. -/
theorem state_collect_spec (acc : CStr) (lines : List CStr) :
    state_collect_continued_content acc lines =
      ((lines.takeWhile contPred).foldl
        (fun a l => a ++ ('\n' :: ((contText l).getD []))) acc,
       lines.dropWhile contPred) := by
  induction lines generalizing acc with
  | nil => simp [state_collect_continued_content]
  | cons l rest ih =>
    by_cases hp : contPred l = true
    · have hcomment : is_comment_line l = true := by
        unfold contPred at hp
        exact (Bool.and_eq_true_iff.1 (Bool.and_eq_true_iff.1 hp).1).1
      have hmem := mem_hash_of_comment l hcomment
      obtain ⟨p, hsplit⟩ := Option.isSome_iff_exists.1 (splitAtChar_isSome_of_mem _ _ hmem)
      obtain ⟨bef, t⟩ := p
      have hct : contText l = some (t.dropWhile cIsSpace) := by
        unfold contText
        rw [hsplit]
      simp [state_collect_continued_content, hp, hct, List.takeWhile_cons,
        List.dropWhile_cons, ih]
    · simp [state_collect_continued_content, hp, List.takeWhile_cons,
        List.dropWhile_cons]

/-- The four-line file of the continuation law stated in the claim. -/
def c6_file : List CStr :=
  [("# @description A".data), ("# B".data), ("# C".data), ("foo() \x7b\x7d".data)]

/-- Claim C6, counterexample.  The claim says the description tag followed by
two comment lines yields the description A, newline, B, newline, C, stored in
function_description once a function name is known.  Parsing that very file
stores plain A in the description field of the file block: the description
tag is dispatched as a file-level tag and never consults the continuation
collector, and no function block is ever opened. -/
theorem C6_counterexample :
    ((parse_shell_file ("f".data) (some c6_file) 100).2.headD emptyDocblock).description =
      some ("A".data) ∧
    ((parse_shell_file ("f".data) (some c6_file) 100).2.headD emptyDocblock).description ≠
      some ("A\nB\nC".data) ∧
    ((parse_shell_file ("f".data) (some c6_file) 100).2.headD
      emptyDocblock).function_description = none ∧
    (parse_shell_file ("f".data) (some c6_file) 100).1 = 1 := by
  decide

/-- Claim C6, amended.  The collector itself behaves as stated: for every
accumulated content and line sequence it appends a newline plus the
after-hash text (whitespace skipped) of each leading line that is a comment,
not a tag line and not a special annotation, and stops at the first other
line, restoring the cursor there.  But the description tag never invokes it:
on the claim file the parse stores plain A in the file block description and
the continuation lines are ignored. -/
theorem C6_continuation_collector :
    (∀ (acc : CStr) (lines : List CStr),
      state_collect_continued_content acc lines =
        ((lines.takeWhile contPred).foldl
          (fun a l => a ++ ('\n' :: ((contText l).getD []))) acc,
         lines.dropWhile contPred)) ∧
    ((parse_shell_file ("f".data) (some c6_file) 100).2.headD emptyDocblock).description =
      some ("A".data) ∧
    ((parse_shell_file ("f".data) (some c6_file) 100).2.headD
      emptyDocblock).function_description = none := by
  refine ⟨state_collect_spec, ?_, ?_⟩ <;> decide

/-! Claim C3: engine result shape.  The lemmas below track one invariant
through both passes: the first docblock never acquires a function name, and
the block list never shrinks below one entry. -/

theorem pfmt_function_name (blk : Docblock) (tag content : CStr) :
    ((process_file_metadata_tag blk tag content).2).function_name = blk.function_name := by
  unfold process_file_metadata_tag
  split_ifs <;> rfl

theorem argt_function_name (blk : Docblock) (content : CStr) :
    ((process_argument_tag blk content).2).function_name = blk.function_name := by
  simp only [process_argument_tag]
  split_ifs <;> rfl

theorem part_function_name (blk : Docblock) (content : CStr) :
    ((process_parameter_tag blk content).2).function_name = blk.function_name := by
  simp only [process_parameter_tag]
  split_ifs <;> rfl

theorem exct_function_name (blk : Docblock) (content : CStr) :
    ((process_exitcode_tag blk content).2).function_name = blk.function_name := by
  unfold process_exitcode_tag
  split <;> rfl

theorem addex_function_name (blk : Docblock) (content : CStr) :
    (add_example_to_docblock blk content).function_name = blk.function_name := by
  unfold add_example_to_docblock
  split <;> rfl

theorem spt_function_name (tag content : CStr) (blk : Docblock) (d : Bool)
    (rest : List CStr) (h : tag ≠ ("function".data)) :
    ((state_process_tag tag content blk d rest).2.1).function_name = blk.function_name := by
  unfold state_process_tag
  by_cases h1 : is_file_level_tag tag = true
  · rw [if_pos h1]
    exact pfmt_function_name blk tag content
  · rw [if_neg h1]
    by_cases h2 : tag = ("function".data)
    · exact absurd h2 h
    · rw [if_neg h2]
      by_cases h3 : tag = ("brief".data)
      · rw [if_pos h3]
        rcases hx : blk.function_name with _ | v <;> rfl
      · rw [if_neg h3]
        by_cases h4 : tag = ("description".data)
        · rw [if_pos h4]
          rcases hx : blk.function_name with _ | v <;> rfl
        · rw [if_neg h4]
          by_cases h5 : tag = ("arg".data)
          · rw [if_pos h5]
            exact argt_function_name blk content
          · rw [if_neg h5]
            by_cases h6 : tag = ("argument".data)
            · rw [if_pos h6]
              exact argt_function_name blk content
            · rw [if_neg h6]
              by_cases h7 : tag = ("param".data)
              · rw [if_pos h7]
                exact part_function_name blk content
              · rw [if_neg h7]
                by_cases h8 : tag = ("return".data)
                · rw [if_pos h8]
                  rfl
                · rw [if_neg h8]
                  by_cases h9 : tag = ("returns".data)
                  · rw [if_pos h9]
                    rfl
                  · rw [if_neg h9]
                    by_cases h10 : tag = ("exitcode".data)
                    · rw [if_pos h10]
                      exact exct_function_name blk content
                    · rw [if_neg h10]
                      by_cases h11 : tag = ("example".data)
                      · rw [if_pos h11]
                        exact addex_function_name blk _
                      · rw [if_neg h11]
                        by_cases h12 : tag = ("stdout".data)
                        · rw [if_pos h12]
                        · rw [if_neg h12]
                          by_cases h13 : tag = ("stderr".data)
                          · rw [if_pos h13]
                          · rw [if_neg h13]
                            by_cases h14 : tag = ("internal".data)
                            · rw [if_pos h14]
                            · rw [if_neg h14]
                              by_cases h15 : state_alert_tags tag = true
                              · rw [if_pos h15]
                                rfl
                              · rw [if_neg h15]

theorem shebang_function_name (l : CStr) (blk : Docblock) :
    (extract_shebang l blk).function_name = blk.function_name := by
  simp only [extract_shebang]
  split_ifs <;> rfl

theorem prepass_function_name (lines : List CStr) (blk : Docblock) :
    (metadata_prepass blk lines).function_name = blk.function_name := by
  induction lines generalizing blk with
  | nil => rfl
  | cons l rest ih =>
    unfold metadata_prepass
    split_ifs with h1 h2 h3
    · rw [ih, shebang_function_name]
    · rw [ih]
      split
      · next tag content heq1 heq2 =>
          split_ifs with h4
          · exact pfmt_function_name blk tag content
          · rfl
      · rfl
    · rw [ih]
    · rfl

def BInv (bs : List Docblock) : Prop :=
  1 ≤ bs.length ∧ (bs.headD emptyDocblock).function_name = none

theorem binv_ne_nil {bs : List Docblock} (h : BInv bs) : bs ≠ [] := by
  have h1 := h.1
  exact List.length_pos.1 (by omega)

theorem binv_set (bs : List Docblock) (i : Nat) (b : Docblock) (h : BInv bs)
    (hb : i = 0 → b.function_name = none) : BInv (bs.set i b) := by
  refine ⟨by rw [List.length_set]; exact h.1, ?_⟩
  cases i with
  | zero =>
    rw [headD_set_zero _ _ _ (binv_ne_nil h)]
    exact hb rfl
  | succ n =>
    rw [headD_set_succ]
    exact h.2

theorem binv_append (bs : List Docblock) (b : Docblock) (h : BInv bs) :
    BInv (bs ++ [b]) := by
  refine ⟨by simp, ?_⟩
  rw [headD_append_left _ _ _ (binv_ne_nil h)]
  exact h.2

theorem scstep_inv (st : EState) (l : CStr) (h : BInv st.blocks) :
    BInv (engine_shellcheck_step st l).blocks := by
  unfold engine_shellcheck_step
  by_cases hsc : (is_shellcheck_directive l && st.cur != 0) = true
  · rw [if_pos hsc]
    refine binv_set _ _ _ h ?_
    intro h0
    exfalso
    have h2 := (Bool.and_eq_true_iff.1 hsc).2
    rw [h0] at h2
    simp at h2
  · rw [if_neg hsc]
    exact h

theorem tagstep_inv (st1 : EState) (l : CStr) (rest : List CStr)
    (h : BInv st1.blocks) : BInv ((engine_tag_step st1 l rest).1).blocks := by
  unfold engine_tag_step
  rcases hn : extract_tag_name l with _ | tag
  · exact h
  rcases hcnt : extract_tag_content l with _ | content
  · exact h
  show BInv
      ((let st2 :=
          if tag = ("function".data) then
            { st1 with blocks := st1.blocks ++ [emptyDocblock], cur := st1.blocks.length }
          else st1
        let r := state_process_tag tag content (st2.blocks.getD st2.cur emptyDocblock)
                   st2.in_docblock rest
        ({ st2 with blocks := st2.blocks.set st2.cur r.2.1, in_docblock := r.2.2.1 },
          r.2.2.2)).1).blocks
  by_cases hf : tag = ("function".data)
  · rw [if_pos hf]
    exact binv_set (st1.blocks ++ [emptyDocblock]) st1.blocks.length
      ((state_process_tag tag content
        ((st1.blocks ++ [emptyDocblock]).getD st1.blocks.length emptyDocblock)
        st1.in_docblock rest).2.1)
      (binv_append _ _ h)
      (fun h0 => absurd h0 (by have h1 := h.1; omega))
  · rw [if_neg hf]
    exact binv_set st1.blocks st1.cur
      ((state_process_tag tag content (st1.blocks.getD st1.cur emptyDocblock)
        st1.in_docblock rest).2.1)
      h
      (fun h0 => by
        rw [spt_function_name _ _ _ _ _ hf, h0, getD_zero_eq_headD]
        exact h.2)

theorem declstep_inv (st1 : EState) (l : CStr) (h : BInv st1.blocks) :
    BInv ((engine_decl_step st1 l)).blocks := by
  unfold engine_decl_step
  rcases hfn : extract_function_name l with _ | fn
  · exact h
  show BInv
      ((let st2 :=
          if !st1.in_docblock || st1.cur = 0 then
            { st1 with blocks := st1.blocks ++ [emptyDocblock], cur := st1.blocks.length }
          else st1
        let blk := st2.blocks.getD st2.cur emptyDocblock
        let blk :=
          if blk.function_name = none then { blk with function_name := some fn } else blk
        { st2 with blocks := st2.blocks.set st2.cur blk, in_docblock := false }) : EState).blocks
  by_cases hcond : (!st1.in_docblock || st1.cur = 0) = true
  · rw [if_pos hcond]
    refine binv_set (st1.blocks ++ [emptyDocblock]) st1.blocks.length _
      (binv_append _ _ h) (fun h0 => absurd h0 (by have h1 := h.1; omega))
  · rw [if_neg hcond]
    refine binv_set st1.blocks st1.cur _ h ?_
    intro h0
    exfalso
    apply hcond
    rw [h0]
    simp

theorem processLine_inv (st : EState) (l : CStr) (rest : List CStr)
    (h : BInv st.blocks) : BInv ((processLine st l rest).1).blocks := by
  unfold processLine
  by_cases hc : is_comment_line l = true
  · rw [if_pos hc]
    by_cases ht : is_tag_line l = true
    · rw [if_pos ht]
      exact tagstep_inv _ _ _ (scstep_inv st l h)
    · rw [if_neg ht]
      by_cases hd : is_function_declaration l = true
      · rw [if_pos hd]
        exact declstep_inv _ _ (scstep_inv st l h)
      · rw [if_neg hd]
        exact scstep_inv st l h
  · rw [if_neg hc]
    exact h

theorem body_loop_inv (maxB : Nat) (fuel : Nat) (st : EState) (lines : List CStr)
    (h : BInv st.blocks) : BInv ((body_loop maxB fuel st lines)).blocks := by
  induction fuel generalizing st lines with
  | zero => cases lines with
    | nil => exact h
    | cons l rest => exact h
  | succ n ih =>
    cases lines with
    | nil => exact h
    | cons l rest =>
      unfold body_loop
      by_cases hlt : st.blocks.length < maxB
      · rw [if_pos hlt]
        exact ih _ _ (processLine_inv st l rest h)
      · rw [if_neg hlt]
        exact h



/-- Claim C3.  For every file that can be opened (and a positive block
capacity, as the engine is always called with), `parse_shell_file` returns a
block count of at least one and the first docblock carries no function name;
for a file that cannot be opened it returns count zero and no docblocks. -/
theorem C3_parse_shell_file (path : CStr) (lines : List CStr) (maxB : Nat) (h : 1 ≤ maxB) :
    (1 ≤ (parse_shell_file path (some lines) maxB).1 ∧
      ((parse_shell_file path (some lines) maxB).2.headD
        emptyDocblock).function_name = none) ∧
    parse_shell_file path none maxB = (0, []) := by
  constructor
  · have hb0 : BInv [metadata_prepass { emptyDocblock with file_name := some path } lines] := by
      refine ⟨by simp, ?_⟩
      show (metadata_prepass { emptyDocblock with file_name := some path }
        lines).function_name = none
      rw [prepass_function_name]
      rfl
    have hloop := body_loop_inv maxB lines.length
      ⟨[metadata_prepass { emptyDocblock with file_name := some path } lines], 0, false⟩
      lines hb0
    unfold parse_shell_file
    rw [if_neg (by omega : ¬ maxB = 0)]
    exact ⟨hloop.1, hloop.2⟩
  · unfold parse_shell_file
    split_ifs <;> rfl

/-- Claim C3, witness on a one-line comment file with capacity two. -/
theorem C3_witness :
    (1 ≤ (parse_shell_file ("p".data) (some [("# hi".data)]) 2).1 ∧
      ((parse_shell_file ("p".data) (some [("# hi".data)]) 2).2.headD
        emptyDocblock).function_name = none) ∧
    parse_shell_file ("p".data) none 2 = (0, []) :=
  C3_parse_shell_file ("p".data) [("# hi".data)] 2 (by decide)


end Shellscribe
